import Mathlib

/-!
Verification of the DynamoDB-backed LaunchDarkly persistent data store
(`lddynamodb`), shallowly embedded from the Go sources
(`dynamodb_helpers.go`, `dynamodb_big_segments_impl.go`).

The embedding models:
  * Go's `strconv.Itoa` / `strconv.Atoi` / `strconv.ParseUint(_,10,64)`
    (decimal formatting and parsing with 64-bit range checks);
  * DynamoDB attribute values restricted to the member types this code
    touches (`S`, `N`, `SS`, and a catch-all for every other shape);
  * the single-table store: items are attribute maps, a table is a list
    of items keyed by the `(namespace, key)` primary key;
  * the store operations (`Init`, `Get`, `GetAll`, `Upsert`,
    `IsInitialized`), the batched-write primitive, and the Big Segment
    store reads, with the remote DynamoDB endpoint modelled by the
    documented semantics of the requests the code sends (conditional
    put, query-by-partition-key, batch write).

Machine integers: Go `int` values are modelled as `Int` with explicit
64-bit range bounds where the code's behaviour depends on them.
-/

namespace LDDynamoDB

/-! ## Decimal formatting and parsing (model of Go strconv) -/

/-- Decimal digit character for `d < 10` (model of the digit table used by
Go's `strconv` formatting; values `≥ 10` never arise). -/
def digitChar : Nat → Char
  | 0 => '0' | 1 => '1' | 2 => '2' | 3 => '3' | 4 => '4'
  | 5 => '5' | 6 => '6' | 7 => '7' | 8 => '8' | 9 => '9'
  | _ => '0'

/-- Fuel-driven digit loop: with fuel exceeding the value this computes the
decimal digits, most significant first (structural recursion keeps the
function kernel-computable; `natDigits` supplies enough fuel). -/
def natDigitsGo : Nat → Nat → List Char
  | 0, _ => []
  | fuel + 1, n =>
    if n < 10 then [digitChar n]
    else natDigitsGo fuel (n / 10) ++ [digitChar (n % 10)]

/-- Decimal digit list of a natural number, most significant first. -/
def natDigits (n : Nat) : List Char := natDigitsGo (n + 1) n

theorem natDigitsGo_fuel_irrel :
    ∀ (f₁ : Nat) (f₂ n : Nat), n < f₁ → n < f₂ →
      natDigitsGo f₁ n = natDigitsGo f₂ n := by
  intro f₁
  induction f₁ with
  | zero => intro f₂ n h₁ _; omega
  | succ k ih =>
    intro f₂ n h₁ h₂
    cases f₂ with
    | zero => omega
    | succ m =>
      rw [natDigitsGo, natDigitsGo]
      by_cases hn : n < 10
      · rw [if_pos hn, if_pos hn]
      · rw [if_neg hn, if_neg hn]
        have hlt : n / 10 < n := Nat.div_lt_self (by omega) (by omega)
        rw [ih m (n / 10) (by omega) (by omega)]

/-- Unfolding step of `natDigits`, matching the recurrence of the decimal
formatting loop. -/
theorem natDigits_step (n : Nat) :
    natDigits n =
      if n < 10 then [digitChar n]
      else natDigits (n / 10) ++ [digitChar (n % 10)] := by
  rw [natDigits, natDigitsGo]
  by_cases hn : n < 10
  · rw [if_pos hn, if_pos hn]
  · rw [if_neg hn, if_neg hn, natDigits]
    have hlt : n / 10 < n := Nat.div_lt_self (by omega) (by omega)
    rw [natDigitsGo_fuel_irrel n (n / 10 + 1) (n / 10) (by omega) (by omega)]

/-- Decimal string of a natural number. -/
def natToString (n : Nat) : String := ⟨natDigits n⟩

/-- Model of Go `strconv.Itoa` (= `FormatInt(v, 10)`): decimal text of a
signed integer. -/
def goItoa (v : Int) : String :=
  if v < 0 then "-" ++ natToString v.natAbs else natToString v.natAbs

/-- Numeric value of a decimal digit character, `none` for non-digits. -/
def charDigit? (c : Char) : Option Nat :=
  if '0' ≤ c ∧ c ≤ '9' then some (c.toNat - '0'.toNat) else none

/-- Accumulating decimal parse of a digit list; fails on any non-digit. -/
def parseDigitsAux : List Char → Nat → Option Nat
  | [], acc => some acc
  | c :: cs, acc =>
    match charDigit? c with
    | some d => parseDigitsAux cs (acc * 10 + d)
    | none => none

/-- Decimal parse of a nonempty digit list (no sign, no other characters),
as in the digit loop shared by Go's `ParseInt`/`ParseUint`. -/
def parseNatDigits? : List Char → Option Nat
  | [] => none
  | cs => parseDigitsAux cs 0

/-- Mathematical decimal integer parse: an optional `+`/`-` sign followed by
one or more digits, with no range restriction.  This is the number grammar
shared by Go's `strconv.ParseInt` and by DynamoDB's numeric comparison of
integer-valued `N` attributes. -/
def parseSignedInt? (s : String) : Option Int :=
  match s.data with
  | '-' :: cs => (parseNatDigits? cs).map (fun (n : Nat) => -(n : Int))
  | '+' :: cs => (parseNatDigits? cs).map (fun (n : Nat) => (n : Int))
  | cs => (parseNatDigits? cs).map (fun (n : Nat) => (n : Int))

/-- Model of Go `strconv.Atoi` (= `ParseInt(s, 10, 0)` on a 64-bit
platform): decimal parse with the `int64` range check; out-of-range or
syntactically invalid input is an error, modelled as `none`. -/
def goAtoi (s : String) : Option Int :=
  match parseSignedInt? s with
  | some v => if -(2 ^ 63) ≤ v ∧ v ≤ 2 ^ 63 - 1 then some v else none
  | none => none

/-- Model of Go `strconv.ParseUint(s, 10, 64)`: unsigned decimal parse (no
sign permitted) with the `uint64` range check. -/
def goParseUint64 (s : String) : Option Nat :=
  match s.data with
  | '-' :: _ => none
  | '+' :: _ => none
  | cs =>
    match parseNatDigits? cs with
    | some n => if n ≤ 2 ^ 64 - 1 then some n else none
    | none => none

theorem charDigit?_digitChar {d : Nat} (h : d < 10) :
    charDigit? (digitChar d) = some d := by
  interval_cases d <;> decide

theorem parseDigitsAux_append (l₁ l₂ : List Char) (acc : Nat) :
    parseDigitsAux (l₁ ++ l₂) acc =
      (parseDigitsAux l₁ acc).bind (parseDigitsAux l₂) := by
  induction l₁ generalizing acc with
  | nil => rfl
  | cons c cs ih =>
    simp only [List.cons_append, parseDigitsAux]
    cases charDigit? c with
    | none => rfl
    | some d => simp [ih]

theorem natDigits_ne_nil (n : Nat) : natDigits n ≠ [] := by
  rw [natDigits_step]
  split
  · simp
  · simp

theorem parseDigitsAux_natDigits (n : Nat) :
    ∀ acc, parseDigitsAux (natDigits n) acc =
      some (acc * 10 ^ (natDigits n).length + n) := by
  induction n using Nat.strong_induction_on with
  | _ n ih =>
    intro acc
    rw [natDigits_step]
    split
    · next h =>
      simp [parseDigitsAux, charDigit?_digitChar h]
    · next h =>
      have hlt : n / 10 < n := Nat.div_lt_self (by omega) (by omega)
      rw [parseDigitsAux_append]
      rw [ih (n / 10) hlt acc]
      simp only [Option.some_bind, parseDigitsAux,
        charDigit?_digitChar (Nat.mod_lt n (by omega))]
      congr 1
      have hmod : n / 10 * 10 + n % 10 = n := by omega
      simp only [List.length_append, List.length_singleton, pow_succ]
      calc (acc * 10 ^ (natDigits (n / 10)).length + n / 10) * 10 + n % 10
          = acc * (10 ^ (natDigits (n / 10)).length * 10)
              + (n / 10 * 10 + n % 10) := by ring
        _ = acc * (10 ^ (natDigits (n / 10)).length * 10) + n := by rw [hmod]

theorem parseNatDigits?_natDigits (n : Nat) :
    parseNatDigits? (natDigits n) = some n := by
  have hne := natDigits_ne_nil n
  rw [parseNatDigits?.eq_def]
  split
  · exact absurd (by assumption) hne
  · rw [parseDigitsAux_natDigits n 0]
    simp

theorem digitChar_ne_sign {d : Nat} (h : d < 10) :
    digitChar d ≠ '-' ∧ digitChar d ≠ '+' := by
  interval_cases d <;> decide

theorem natDigits_head (n : Nat) :
    ∃ d l, natDigits n = digitChar d :: l ∧ d < 10 := by
  induction n using Nat.strong_induction_on with
  | _ n ih =>
    rw [natDigits_step]
    split
    · next h => exact ⟨n, [], rfl, h⟩
    · next h =>
      have hlt : n / 10 < n := Nat.div_lt_self (by omega) (by omega)
      obtain ⟨d, l, heq, hd⟩ := ih (n / 10) hlt
      exact ⟨d, l ++ [digitChar (n % 10)], by rw [heq]; rfl, hd⟩

theorem parseSignedInt?_cons_not_sign {c : Char} {cs : List Char} (s : String)
    (hs : s.data = c :: cs) (h1 : c ≠ '-') (h2 : c ≠ '+') :
    parseSignedInt? s = (parseNatDigits? (c :: cs)).map (fun (n : Nat) => (n : Int)) := by
  rw [parseSignedInt?, hs]
  split
  · next heq => injection heq with hc _; exact absurd hc h1
  · next heq => injection heq with hc _; exact absurd hc h2
  · rfl

theorem parseSignedInt?_goItoa (v : Int) : parseSignedInt? (goItoa v) = some v := by
  by_cases hv : v < 0
  · have hrepr : goItoa v = "-" ++ natToString v.natAbs := by
      rw [goItoa]; simp [hv]
    rw [hrepr, parseSignedInt?]
    have hdata : (("-" ++ natToString v.natAbs)).data = '-' :: natDigits v.natAbs := by
      rw [String.data_append]; rfl
    rw [hdata]
    simp only [parseNatDigits?_natDigits]
    show some (-((v.natAbs : Nat) : Int)) = some v
    congr 1
    rw [Int.ofNat_natAbs_of_nonpos (by omega : v ≤ 0), neg_neg]
  · have hrepr : goItoa v = natToString v.natAbs := by
      rw [goItoa]; simp [hv]
    obtain ⟨d, l, heq, hd⟩ := natDigits_head v.natAbs
    have hdata : (goItoa v).data = digitChar d :: l := by
      rw [hrepr, natToString, heq]
    have hsign := digitChar_ne_sign hd
    rw [parseSignedInt?_cons_not_sign (goItoa v) hdata hsign.1 hsign.2]
    rw [← heq, parseNatDigits?_natDigits]
    show some ((v.natAbs : Nat) : Int) = some v
    congr 1
    exact Int.natAbs_of_nonneg (by omega)

theorem goAtoi_goItoa {v : Int} (h₁ : -(2 ^ 63) ≤ v) (h₂ : v < 2 ^ 63) :
    goAtoi (goItoa v) = some v := by
  rw [goAtoi, parseSignedInt?_goItoa]
  simp only
  rw [if_pos ⟨h₁, by omega⟩]

/-! ## Attribute values and the codec (source: dynamodb_helpers.go) -/

/-- DynamoDB attribute value, restricted to the member types this code
distinguishes: `S` (string), `N` (number, decimal text), `SS` (string set),
and a catch-all `other` for every remaining member type (`B`, `BOOL`,
`L`, `M`, ...), which the codec treats uniformly via its default cases. -/
inductive Attr
  | S (value : String)
  | N (value : String)
  | SS (value : List String)
  | other
deriving DecidableEq, Repr

/-- Item stored in the table: a map from attribute name to attribute value
(`map[string]types.AttributeValue`), modelled as an association list with
distinct keys; lookup is `List.lookup`.  A missed lookup returns `none`,
modelling Go's nil interface value for a missing map key. -/
abbrev AttrMap := List (String × Attr)

/-- Model of `attrValueOfString`. -/
def attrValueOfString (value : String) : Attr := .S value

/-- Model of `attrValueOfInt` (`strconv.Itoa`). -/
def attrValueOfInt (value : Int) : Attr := .N (goItoa value)

/-- Model of `attrValueToString`: `S` and `N` members yield their text, any
other shape (including a missing attribute, Go's nil interface) yields `""`. -/
def attrValueToString : Option Attr → String
  | some (.S v) => v
  | some (.N v) => v
  | _ => ""

/-- Model of `attrValueToInt`: an `N` member whose text parses with
`strconv.Atoi` yields its value, everything else yields `0`. -/
def attrValueToInt : Option Attr → Int
  | some (.N v) =>
    match goAtoi v with
    | some n => n
    | none => 0
  | _ => 0

/-- Model of `attrValueToUint64`: an `N` member whose text parses with
`strconv.ParseUint(_, 10, 64)` yields its value, everything else yields
`0`.  Go's `uint64` is modelled as `Nat` bounded by the parse itself. -/
def attrValueToUint64 : Option Attr → Nat
  | some (.N v) =>
    match goParseUint64 v with
    | some n => n
    | none => 0
  | _ => 0

/-! ## Table schema constants (source: dynamodb_helpers.go) -/

def tablePartitionKey : String := "namespace"

def tableSortKey : String := "key"

def versionAttribute : String := "version"

def itemJSONAttribute : String := "item"

/-- Hard ceiling on the total encoded item size; the DynamoDB limit of
"400KB" rounded down. -/
def dynamoDbMaxItemSize : Nat := 400000

/-- Model of the Go `namespaceAndKey` struct; `ns` stands for the Go field
`namespace` (a reserved word in Lean). -/
structure NamespaceAndKey where
  ns : String
  key : String
deriving DecidableEq, Repr

/-- Model of `prefixedNamespace` (identical in `dynamoDBDataStore` and in
dynamodb_big_segments_impl.go): empty prefix means no prefixing, otherwise
the prefix and a `:` separator come first.  The store's prefix parameter
is called `pfx` throughout. -/
def prefixedNamespace (pfx baseNamespace : String) : String :=
  if pfx = "" then baseNamespace else pfx ++ ":" ++ baseNamespace

/-- Model of `dynamoDBDataStore.namespaceForKind`; a `DataKind` is
represented by its name (`kind.GetName()`). -/
def namespaceForKind (pfx kindName : String) : String :=
  prefixedNamespace pfx kindName

/-- Model of `dynamoDBDataStore.initedKey`. -/
def initedKey (pfx : String) : String := prefixedNamespace pfx "$inited"

/-! ## Serialized item descriptors (ldstoretypes, at this code's boundary) -/

/-- Model of `ldstoretypes.SerializedItemDescriptor` as used by this store:
a version (Go `int`, modelled as `Int`) and the opaque serialized payload
(Go `[]byte`, modelled as the byte string it is converted to and from). -/
structure SerializedItemDescriptor where
  Version : Int
  SerializedItem : String
deriving DecidableEq, Repr

/-- Zero-value descriptor returned by
`ldstoretypes.SerializedItemDescriptor{}.NotFound()`. -/
def SerializedItemDescriptor.notFound : SerializedItemDescriptor := ⟨0, ""⟩

/-- Model of `ldstoretypes.KeyedSerializedItemDescriptor`. -/
structure KeyedItem where
  Key : String
  Item : SerializedItemDescriptor
deriving DecidableEq, Repr

/-- Model of `ldstoretypes.SerializedCollection`: a data kind (by name)
together with its items. -/
structure SerializedCollection where
  Kind : String
  Items : List KeyedItem
deriving DecidableEq, Repr

/-! ## Encoding, decoding and the size limit (source: dynamodb_helpers.go) -/

/-- Model of `dynamoDBDataStore.encodeItem`. -/
def encodeItem (pfx kindName key : String) (item : SerializedItemDescriptor) :
    AttrMap :=
  [(tablePartitionKey, attrValueOfString (namespaceForKind pfx kindName)),
   (tableSortKey, attrValueOfString key),
   (versionAttribute, attrValueOfInt item.Version),
   (itemJSONAttribute, attrValueOfString item.SerializedItem)]

/-- Model of `dynamoDBDataStore.decodeItem`: `none` is Go's `ok = false`
result (the record is structurally malformed). -/
def decodeItem (av : AttrMap) : Option (String × SerializedItemDescriptor) :=
  let key := attrValueToString (av.lookup tableSortKey)
  let version := attrValueToInt (av.lookup versionAttribute)
  let itemJSON := attrValueToString (av.lookup itemJSONAttribute)
  if key ≠ "" then some (key, ⟨version, itemJSON⟩) else none

/-- Byte length of a Go string (`len` counts UTF-8 bytes). -/
def goLen (s : String) : Nat := s.utf8ByteSize

/-- Total encoded size of an item as computed by
`dynamoDBDataStore.checkSizeLimit`: 100 bytes of fixed index overhead plus,
for every attribute, the name length plus the length of the value's text
form.  (Go iterates the map in unspecified order; the sum is
order-independent.) -/
def encodedSize (item : AttrMap) : Nat :=
  item.foldl (fun size p => size + goLen p.1 + goLen (attrValueToString (some p.2))) 100

/-- Model of `dynamoDBDataStore.checkSizeLimit`: `true` when the item may be
stored (the error-level log line on the `false` path has no model state). -/
def checkSizeLimit (item : AttrMap) : Bool :=
  encodedSize item ≤ dynamoDbMaxItemSize

/-! ## The table and write requests -/

/-- Primary key of a stored item, extracted from its `namespace` and `key`
attributes (the table schema's partition and sort key). -/
def itemPK (item : AttrMap) : NamespaceAndKey :=
  ⟨attrValueToString (item.lookup tablePartitionKey),
   attrValueToString (item.lookup tableSortKey)⟩

/-- A DynamoDB table: the list of stored items.  Real tables hold at most
one item per primary key; theorems that need this state it as a
`Nodup` hypothesis on `itemPK`. -/
abbrev Table := List AttrMap

/-- Model of `types.WriteRequest`: exactly one of a put (with the full
item) or a delete (with the primary key), as built by `Init`. -/
inductive WriteRequest
  | put (item : AttrMap)
  | del (key : NamespaceAndKey)
deriving DecidableEq, Repr

/-- Semantics of one write request against the table, per the DynamoDB
`BatchWriteItem` contract: a put replaces the item with the same primary
key (appending the new item), a delete removes the item with that key. -/
def applyRequest (table : Table) : WriteRequest → Table
  | .put item => table.filter (fun it => !(itemPK it == itemPK item)) ++ [item]
  | .del key => table.filter (fun it => !(itemPK it == key))

/-- Transport-level errors from the remote store are opaque; only their
presence matters to this code. -/
abbrev DynError := String

/-! ## Point reads (source: dynamodb_helpers.go) -/

/-- GetItem against the table model: the (at most one) item with the given
primary key; consistent read. -/
def getItemFromTable (pk : NamespaceAndKey) (table : Table) : Option AttrMap :=
  table.find? (fun it => itemPK it == pk)

/-- Model of `dynamoDBDataStore.Get` downstream of the `GetItem` call,
whose outcome (transport error / absent / found item) is the argument:
a transport error and a decode failure both surface as the not-found
descriptor plus a non-nil error; absence is not-found with nil error. -/
def Get (res : Except DynError (Option AttrMap)) :
    SerializedItemDescriptor × Option DynError :=
  match res with
  | .error e => (SerializedItemDescriptor.notFound, some ("failed to get: " ++ e))
  | .ok none => (SerializedItemDescriptor.notFound, none)
  | .ok (some item) =>
    match decodeItem item with
    | some kv => (kv.2, none)
    | none => (SerializedItemDescriptor.notFound, some "invalid data")

/-- `Get` evaluated against a table state. -/
def getFromTable (pfx kindName key : String) (table : Table) :
    SerializedItemDescriptor × Option DynError :=
  Get (.ok (getItemFromTable ⟨namespaceForKind pfx kindName, key⟩ table))

/-! ## Queries and GetAll (source: dynamodb_helpers.go) -/

/-- Result of the query `makeQueryForKind` builds, against the table model:
every stored item whose `namespace` attribute equals the queried
namespace (the paginator's pages, concatenated). -/
def queryNamespace (nsName : String) (table : Table) : List AttrMap :=
  table.filter (fun it => attrValueToString (it.lookup tablePartitionKey) == nsName)

/-- Model of `dynamoDBDataStore.GetAll` downstream of the paginated query,
whose outcome is the argument: items that fail to decode are silently
skipped; a page error aborts with that error. -/
def GetAll (pages : Except DynError (List AttrMap)) :
    Except DynError (List KeyedItem) :=
  pages.map (fun items =>
    items.filterMap (fun it => (decodeItem it).map (fun kv => ⟨kv.1, kv.2⟩)))

/-- `GetAll` evaluated against a table state. -/
def getAllFromTable (pfx kindName : String) (table : Table) :
    Except DynError (List KeyedItem) :=
  GetAll (.ok (queryNamespace (namespaceForKind pfx kindName) table))

/-! ## Upsert (source: dynamodb_helpers.go) -/

/-- DynamoDB numeric comparison of two integer-valued `N` texts, as
evaluated by the server for `:version > #version`; a non-numeric operand
makes the comparison false. -/
def dynamoNumGT (a b : String) : Bool :=
  match parseSignedInt? a, parseSignedInt? b with
  | some x, some y => decide (x > y)
  | _, _ => false

/-- Server-side evaluation of the condition expression
`attribute_not_exists(#namespace) or attribute_not_exists(#key) or
:version > #version` against the existing item at the put's primary key,
with `:version = attrValueOfInt newVersion`. -/
def upsertConditionHolds (newVersion : Int) (existing : AttrMap) : Bool :=
  (existing.lookup tablePartitionKey).isNone ||
  (existing.lookup tableSortKey).isNone ||
  (match existing.lookup versionAttribute with
   | some (.N s) => dynamoNumGT (goItoa newVersion) s
   | _ => false)

/-- Model of `dynamoDBDataStore.Upsert`: the size check, then the
conditional put, with the remote evaluating the condition against the item
at the new item's primary key.  Result: (applied, error, new table).
A failed condition (`ConditionalCheckFailedException`) and an oversized
item both yield `(false, none)` with the table unchanged; transport
failures of the `PutItem` call itself are outside this model. -/
def Upsert (pfx kindName key : String) (newItem : SerializedItemDescriptor)
    (table : Table) : Bool × Option DynError × Table :=
  let av := encodeItem pfx kindName key newItem
  if !checkSizeLimit av then (false, none, table)
  else
    match getItemFromTable (itemPK av) table with
    | none => (true, none, applyRequest table (.put av))
    | some existing =>
      if upsertConditionHolds newItem.Version existing then
        (true, none, applyRequest table (.put av))
      else (false, none, table)

/-! ## IsInitialized (source: dynamodb_helpers.go) -/

/-- Model of `dynamoDBDataStore.IsInitialized` downstream of the `GetItem`
call for the sentinel key (`err == nil && len(result.Item) != 0`); an
absent record comes back as an empty item map. -/
def IsInitialized (res : Except DynError AttrMap) : Bool :=
  match res with
  | .error _ => false
  | .ok item => !item.isEmpty

/-! ## Batched write primitive (source: dynamodb_helpers.go) -/

/-- Model of `batchWriteRequests`.  `submit` is the remote
`BatchWriteItem` call for one batch.  The Go loop takes
`int(math.Min(float64(len(requests)), 25))` requests per batch; for every
list length the float detour computes exactly `min length 25`, which is
how it is written here.  The Go function returns only the error; the model
also returns the list of batches actually submitted, in order, so that
the submission behaviour is visible to theorems. -/
def batchWriteRequests (submit : List WriteRequest → Except DynError Unit) :
    List WriteRequest → List (List WriteRequest) × Option DynError
  | [] => ([], none)
  | q :: qs =>
    let requests := q :: qs
    let batchSize := min requests.length 25
    let batch := requests.take batchSize
    let rest := requests.drop batchSize
    match submit batch with
    | .error e => ([batch], some e)
    | .ok _ =>
      let r := batchWriteRequests submit rest
      (batch :: r.1, r.2)
  termination_by requests => requests.length
  decreasing_by simp

/-- Partition of a request list into consecutive chunks of at most 25, in
order, mirroring the batch sizes `batchWriteRequests` computes. -/
def chunksOf25 : List WriteRequest → List (List WriteRequest)
  | [] => []
  | q :: qs =>
    let requests := q :: qs
    requests.take (min requests.length 25) ::
      chunksOf25 (requests.drop (min requests.length 25))
  termination_by requests => requests.length
  decreasing_by simp

/-- Sequential submission of a chunk list, aborting at the first failing
chunk and surfacing its error; written from the specification's wording to
compare `batchWriteRequests` against. -/
def submitChunksSequentially (submit : List WriteRequest → Except DynError Unit) :
    List (List WriteRequest) → List (List WriteRequest) × Option DynError
  | [] => ([], none)
  | c :: cs =>
    match submit c with
    | .error e => ([c], some e)
    | .ok _ =>
      let r := submitChunksSequentially submit cs
      (c :: r.1, r.2)

/-! ## Init (source: dynamodb_helpers.go) -/

/-- Model of the `dynamodb.QueryInput` fields this code sets. -/
structure QueryInput where
  tableName : String
  consistentRead : Bool
  keyConditionNamespaceEq : String
  projectionExpression : Option String
  expressionAttributeNames : List (String × String)
deriving DecidableEq, Repr

/-- Model of `dynamoDBDataStore.makeQueryForKind`: a consistent query for
every item whose partition key equals the kind's namespace; no projection. -/
def makeQueryForKind (tableName pfx kindName : String) : QueryInput :=
  { tableName := tableName
    consistentRead := true
    keyConditionNamespaceEq := namespaceForKind pfx kindName
    projectionExpression := none
    expressionAttributeNames := [] }

/-- The queries `readExistingKeys` actually hands to the paginator, one per
input collection.  The source builds `query` from `makeQueryForKind` and
sets a `#namespace, #key` projection on it, but then constructs the
paginator from a fresh `store.makeQueryForKind(kind)` call, so the
projected query is a dead assignment and the issued query has no
projection; `_query` mirrors that dead assignment. -/
def readExistingKeysQueries (tableName pfx : String)
    (newData : List SerializedCollection) : List QueryInput :=
  newData.map (fun coll =>
    let _query : QueryInput :=
      { makeQueryForKind tableName pfx coll.Kind with
        projectionExpression := some "#namespace, #key"
        expressionAttributeNames :=
          [("#namespace", tablePartitionKey), ("#key", tableSortKey)] }
    makeQueryForKind tableName pfx coll.Kind)

/-- Insertion into the `unusedOldKeys` Go map, modelled as an append-if-new
list (map keys are unordered; the claims proved below do not depend on the
order chosen here). -/
def insertKey (acc : List NamespaceAndKey) (nk : NamespaceAndKey) :
    List NamespaceAndKey :=
  if nk ∈ acc then acc else acc ++ [nk]

/-- Model of `dynamoDBDataStore.readExistingKeys` against a table state:
for each input collection, every `(namespace, key)` pair of the items the
issued query returns (the pair the source builds is exactly `itemPK`),
collected into the map modelled by `insertKey`. -/
def readExistingKeysList (pfx : String) (table : Table)
    (newData : List SerializedCollection) : List NamespaceAndKey :=
  newData.foldl
    (fun keys coll =>
      ((queryNamespace (namespaceForKind pfx coll.Kind) table).map itemPK).foldl
        insertKey keys)
    []

/-- The put requests `Init` accumulates: for every input item that passes
the size check, in input order, a put of its encoding (the `continue`
branch of the Go loop is the filter). -/
def initAvs (pfx : String) (allData : List SerializedCollection) : List AttrMap :=
  allData.flatMap (fun coll =>
    (coll.Items.filter
        (fun item => checkSizeLimit (encodeItem pfx coll.Kind item.Key item.Item))).map
      (fun item => encodeItem pfx coll.Kind item.Key item.Item))

/-- The keys `Init` marks as still used (`unusedOldKeys[nk] = false`):
one per size-passing input item. -/
def usedKeys (pfx : String) (allData : List SerializedCollection) :
    List NamespaceAndKey :=
  allData.flatMap (fun coll =>
    (coll.Items.filter
        (fun item => checkSizeLimit (encodeItem pfx coll.Kind item.Key item.Item))).map
      (fun item => ⟨namespaceForKind pfx coll.Kind, item.Key⟩))

/-- The sentinel record `Init` writes last (`namespace = key = initedKey`,
no other attributes). -/
def initedItem (pfx : String) : AttrMap :=
  [(tablePartitionKey, attrValueOfString (initedKey pfx)),
   (tableSortKey, attrValueOfString (initedKey pfx))]

/-- The keys `Init` deletes: previously existing keys not marked used,
skipping any key whose namespace is the sentinel namespace. -/
def initDeleteKeys (pfx : String) (existingKeys : List NamespaceAndKey)
    (allData : List SerializedCollection) : List NamespaceAndKey :=
  existingKeys.filter
    (fun k => !(usedKeys pfx allData).contains k && !(k.ns == initedKey pfx))

/-- The full write-request list `Init` submits: the puts, then the deletes,
then the sentinel put. -/
def initRequests (pfx : String) (existingKeys : List NamespaceAndKey)
    (allData : List SerializedCollection) : List WriteRequest :=
  (initAvs pfx allData).map .put ++
    (initDeleteKeys pfx existingKeys allData).map .del ++
    [.put (initedItem pfx)]

/-- `Init` run to completion against a table state (every batch of the
batched write succeeded, so all requests were applied in order). -/
def runInit (pfx : String) (table : Table)
    (allData : List SerializedCollection) : Table :=
  (initRequests pfx (readExistingKeysList pfx table allData) allData).foldl
    applyRequest table

/-! ## Big Segment store (source: dynamodb_big_segments_impl.go) -/

def bigSegmentsMetadataKey : String := "big_segments_metadata"

def bigSegmentsUserDataKey : String := "big_segments_user"

def bigSegmentsSyncTimeAttr : String := "synchronizedOn"

def bigSegmentsIncludedAttr : String := "included"

def bigSegmentsExcludedAttr : String := "excluded"

/-- Model of `subsystems.BigSegmentMembership` at this code's boundary: the
SDK value is fully determined by the two segment-reference lists the
constructor receives. -/
structure BigSegmentMembership where
  includedRefs : List String
  excludedRefs : List String
deriving DecidableEq, Repr

/-- Boundary model of `ldstoreimpl.NewBigSegmentMembershipFromSegmentRefs`;
the Go nil slices passed on the absent path are empty lists. -/
def NewBigSegmentMembershipFromSegmentRefs (included excluded : List String) :
    BigSegmentMembership :=
  ⟨included, excluded⟩

/-- Model of `getStringListFromSet`: an `SS` member yields its values, any
other shape (including a missing attribute) yields nil. -/
def getStringListFromSet : Option Attr → List String
  | some (.SS l) => l
  | _ => []

/-- Model of `dynamoDBBigSegmentStoreImpl.GetMembership` downstream of the
`GetItem` call: a transport error returns (nil, error); an absent record
returns the membership built from nil/nil and no error; a found record
returns the membership built from its `included`/`excluded` sets.  The
first component is `none` exactly when Go returns a nil membership. -/
def GetMembership (res : Except DynError (Option AttrMap)) :
    Option BigSegmentMembership × Option DynError :=
  match res with
  | .error e => (none, some e)
  | .ok none => (some (NewBigSegmentMembershipFromSegmentRefs [] []), none)
  | .ok (some item) =>
    (some (NewBigSegmentMembershipFromSegmentRefs
        (getStringListFromSet (item.lookup bigSegmentsIncludedAttr))
        (getStringListFromSet (item.lookup bigSegmentsExcludedAttr))),
      none)

/-- `GetMembership` evaluated against a table state. -/
def getMembershipFromTable (pfx contextHashKey : String) (table : Table) :
    Option BigSegmentMembership × Option DynError :=
  GetMembership
    (.ok (getItemFromTable
      ⟨prefixedNamespace pfx bigSegmentsUserDataKey, contextHashKey⟩ table))

/-! ## Basic lemmas about the embedding -/

theorem itemPK_encodeItem (pfx kindName key : String)
    (item : SerializedItemDescriptor) :
    itemPK (encodeItem pfx kindName key item) =
      ⟨namespaceForKind pfx kindName, key⟩ := by
  rfl

theorem attrValueToInt_ofInt {v : Int} (h₁ : -(2 ^ 63) ≤ v) (h₂ : v < 2 ^ 63) :
    attrValueToInt (some (attrValueOfInt v)) = v := by
  simp only [attrValueOfInt, attrValueToInt, goAtoi_goItoa h₁ h₂]

theorem decodeItem_encodeItem (pfx kindName key : String)
    (item : SerializedItemDescriptor) (hkey : key ≠ "")
    (h₁ : -(2 ^ 63) ≤ item.Version) (h₂ : item.Version < 2 ^ 63) :
    decodeItem (encodeItem pfx kindName key item) =
      some (key, ⟨item.Version, item.SerializedItem⟩) := by
  have hk : (encodeItem pfx kindName key item).lookup tableSortKey =
      some (attrValueOfString key) := by rfl
  have hv : (encodeItem pfx kindName key item).lookup versionAttribute =
      some (attrValueOfInt item.Version) := by rfl
  have hj : (encodeItem pfx kindName key item).lookup itemJSONAttribute =
      some (attrValueOfString item.SerializedItem) := by rfl
  rw [decodeItem]
  simp only [hk, hv, hj, attrValueToInt_ofInt h₁ h₂]
  rw [if_pos]
  · rfl
  · exact hkey

theorem prefixedNamespace_inj {pfx a b : String}
    (h : prefixedNamespace pfx a = prefixedNamespace pfx b) : a = b := by
  rw [prefixedNamespace, prefixedNamespace] at h
  split at h
  · exact h
  · have hdata := congrArg String.data h
    rw [String.data_append, String.data_append] at hdata
    exact String.ext (List.append_cancel_left hdata)

theorem namespaceForKind_ne_initedKey {pfx kindName : String}
    (h : kindName ≠ "$inited") :
    namespaceForKind pfx kindName ≠ initedKey pfx := by
  intro heq
  exact h (prefixedNamespace_inj heq)

/-! ## Lemmas about applying write requests -/

theorem foldl_applyRequest_dels (ks : List NamespaceAndKey) (table : Table) :
    (ks.map WriteRequest.del).foldl applyRequest table =
      table.filter (fun it => !ks.contains (itemPK it)) := by
  induction ks generalizing table with
  | nil => simp
  | cons k ks ih =>
    simp only [List.map_cons, List.foldl_cons, applyRequest, ih,
      List.filter_filter]
    congr 1
    funext it
    simp only [List.contains_cons]
    cases h : itemPK it == k <;> simp [h]

theorem foldl_applyRequest_puts (avs : List AttrMap) (table : Table)
    (hnd : (avs.map itemPK).Nodup) :
    (avs.map WriteRequest.put).foldl applyRequest table =
      table.filter (fun it => !(avs.map itemPK).contains (itemPK it)) ++ avs := by
  induction avs generalizing table with
  | nil => simp
  | cons av avs ih =>
    simp only [List.map_cons, List.nodup_cons] at hnd
    simp only [List.map_cons, List.foldl_cons, applyRequest,
      ih _ hnd.2, List.filter_append, List.filter_filter]
    have hav : (List.filter
        (fun it => !(avs.map itemPK).contains (itemPK it)) [av]) = [av] := by
      simp only [List.filter_eq_self, List.mem_singleton]
      intro a ha
      subst ha
      simpa using hnd.1
    rw [hav, List.append_assoc]
    have hpred : (fun it =>
          !(avs.map itemPK).contains (itemPK it) && !(itemPK it == itemPK av))
        = (fun it => !(itemPK av :: avs.map itemPK).contains (itemPK it)) := by
      funext it
      simp only [List.contains_cons]
      cases h : itemPK it == itemPK av <;> simp [h]
    rw [hpred]
    rfl

/-! ## Lemmas about the existing-key scan -/

theorem mem_foldl_insertKey (l : List NamespaceAndKey)
    (acc : List NamespaceAndKey) (x : NamespaceAndKey) :
    x ∈ l.foldl insertKey acc ↔ x ∈ acc ∨ x ∈ l := by
  induction l generalizing acc with
  | nil => simp
  | cons k ks ih =>
    simp only [List.foldl_cons, ih, insertKey]
    split
    · next hmem =>
      constructor
      · rintro (h | h)
        · exact Or.inl h
        · exact Or.inr (List.mem_cons_of_mem _ h)
      · rintro (h | h)
        · exact Or.inl h
        · rcases List.mem_cons.mp h with h | h
          · subst h; exact Or.inl hmem
          · exact Or.inr h
    · constructor
      · rintro (h | h)
        · rcases List.mem_append.mp h with h | h
          · exact Or.inl h
          · exact Or.inr (List.mem_cons.mpr (Or.inl (List.mem_singleton.mp h)))
        · exact Or.inr (List.mem_cons_of_mem _ h)
      · rintro (h | h)
        · exact Or.inl (List.mem_append.mpr (Or.inl h))
        · rcases List.mem_cons.mp h with h | h
          · exact Or.inl (List.mem_append.mpr (Or.inr (by simp [h])))
          · exact Or.inr h

theorem mem_readExistingKeysList {pfx : String} {table : Table}
    {newData : List SerializedCollection} (x : NamespaceAndKey) :
    x ∈ readExistingKeysList pfx table newData ↔
      ∃ coll ∈ newData,
        x ∈ (queryNamespace (namespaceForKind pfx coll.Kind) table).map itemPK := by
  rw [readExistingKeysList]
  have main : ∀ (ds : List SerializedCollection) (acc : List NamespaceAndKey),
      x ∈ ds.foldl (fun keys coll =>
          ((queryNamespace (namespaceForKind pfx coll.Kind) table).map itemPK).foldl
            insertKey keys) acc ↔
        x ∈ acc ∨ ∃ coll ∈ ds,
          x ∈ (queryNamespace (namespaceForKind pfx coll.Kind) table).map itemPK := by
    intro ds
    induction ds with
    | nil => simp
    | cons d ds ih =>
      intro acc
      simp only [List.foldl_cons, ih, mem_foldl_insertKey]
      constructor
      · rintro ((h | h) | ⟨c, hc, hx⟩)
        · exact Or.inl h
        · exact Or.inr ⟨d, List.mem_cons_self d ds, h⟩
        · exact Or.inr ⟨c, List.mem_cons_of_mem _ hc, hx⟩
      · rintro (h | ⟨c, hc, hx⟩)
        · exact Or.inl (Or.inl h)
        · rcases List.mem_cons.mp hc with h | h
          · subst h; exact Or.inl (Or.inr hx)
          · exact Or.inr ⟨c, h, hx⟩
  rw [main]
  simp

/-! ## Claim C9: codec decoding of wrong-shaped values -/

/-- Claim C9: for every attribute value of the wrong shape (not the
expected member type, or a numeric member whose text does not parse), the
codec's decoding functions return a zero value rather than an error:
`attrValueToString` yields `""` on every shape other than `S`/`N`
(including a missing attribute), `attrValueToInt` and `attrValueToUint64`
yield `0` on every shape other than `N` and on an `N` whose text fails the
respective Go parse.  All three are total functions, so they never fail. -/
theorem claim_C9_codec_wrong_shape_yields_zero :
    (∀ l, attrValueToString (some (.SS l)) = "") ∧
    attrValueToString (some .other) = "" ∧
    attrValueToString none = "" ∧
    (∀ s, attrValueToInt (some (.S s)) = 0) ∧
    (∀ l, attrValueToInt (some (.SS l)) = 0) ∧
    attrValueToInt (some .other) = 0 ∧
    attrValueToInt none = 0 ∧
    (∀ s, goAtoi s = none → attrValueToInt (some (.N s)) = 0) ∧
    (∀ s, attrValueToUint64 (some (.S s)) = 0) ∧
    (∀ l, attrValueToUint64 (some (.SS l)) = 0) ∧
    attrValueToUint64 (some .other) = 0 ∧
    attrValueToUint64 none = 0 ∧
    (∀ s, goParseUint64 s = none → attrValueToUint64 (some (.N s)) = 0) := by
  refine ⟨fun l => rfl, rfl, rfl, fun s => rfl, fun l => rfl, rfl, rfl,
    fun s h => ?_, fun s => rfl, fun l => rfl, rfl, rfl, fun s h => ?_⟩
  · simp [attrValueToInt, h]
  · simp [attrValueToUint64, h]

/-- Witness for C9 at concrete inputs: a non-numeric `N` text decodes to
`0` as an int, and a signed `N` text decodes to `0` as a uint64. -/
theorem claim_C9_witness :
    attrValueToInt (some (.N "x7")) = 0 ∧
    attrValueToUint64 (some (.N "-1")) = 0 :=
  ⟨claim_C9_codec_wrong_shape_yields_zero.2.2.2.2.2.2.2.1 "x7" (by decide),
   claim_C9_codec_wrong_shape_yields_zero.2.2.2.2.2.2.2.2.2.2.2.2 "-1" (by decide)⟩

/-! ## Claim C10: IsInitialized swallows transport errors -/

/-- Claim C10: `IsInitialized` returns `false` both when the sentinel
record is absent (empty item map) and when the underlying read fails with
a transport error; the two outcomes are equal, so a caller cannot
distinguish "store unreachable" from "store not yet initialized". -/
theorem claim_C10_isInitialized_swallows_errors :
    (∀ e : DynError, IsInitialized (.error e) = false) ∧
    IsInitialized (.ok ([] : AttrMap)) = false ∧
    (∀ e : DynError, IsInitialized (.error e) = IsInitialized (.ok ([] : AttrMap))) :=
  ⟨fun _ => rfl, rfl, fun _ => rfl⟩

/-! ## Claim C8: GetMembership on an absent record -/

/-- Claim C8: for every context hash key with no stored membership record,
`GetMembership` returns a present (non-nil) membership built from empty
included and excluded sets, with no error; a failed underlying read
instead returns no membership and the error, so the two outcomes are
distinguishable. -/
theorem claim_C8_getMembership_empty (pfx hashKey : String) (table : Table)
    (habsent : getItemFromTable
      ⟨prefixedNamespace pfx bigSegmentsUserDataKey, hashKey⟩ table = none) :
    getMembershipFromTable pfx hashKey table =
      (some (NewBigSegmentMembershipFromSegmentRefs [] []), none) ∧
    NewBigSegmentMembershipFromSegmentRefs [] [] = ⟨[], []⟩ ∧
    (∀ e : DynError, GetMembership (.error e) = (none, some e)) := by
  refine ⟨?_, rfl, fun e => rfl⟩
  rw [getMembershipFromTable, habsent]
  rfl

/-- Witness for C8: the empty table stores nothing at the membership key,
and the lookup returns the empty membership with no error. -/
theorem claim_C8_witness :
    getMembershipFromTable "" "userhash" ([] : Table) =
      (some (NewBigSegmentMembershipFromSegmentRefs [] []), none) :=
  (claim_C8_getMembership_empty "" "userhash" [] (by decide)).1

/-! ## Claim C4: shape of the Init write-request list -/

/-- Boolean test for a delete request aimed at the sentinel record. -/
def targetsSentinelDelete (pfx : String) : WriteRequest → Bool
  | .del k => k == ⟨initedKey pfx, initedKey pfx⟩
  | .put _ => false

/-- Claim C4: the write-request list `Init` submits contains no delete
request targeting the sentinel "initialized" record, and the put of the
sentinel record is the last element of the list. -/
theorem claim_C4_init_requests_shape (pfx : String) (table : Table)
    (allData : List SerializedCollection) :
    ((initRequests pfx (readExistingKeysList pfx table allData) allData).all
        (fun r => !targetsSentinelDelete pfx r)) = true ∧
    (initRequests pfx (readExistingKeysList pfx table allData) allData).getLast? =
      some (.put (initedItem pfx)) := by
  constructor
  · rw [initRequests]
    simp only [List.all_append, Bool.and_eq_true, List.all_eq_true]
    refine ⟨⟨?_, ?_⟩, ?_⟩
    · intro r hr
      rcases List.mem_map.mp hr with ⟨av, _, rfl⟩
      rfl
    · intro r hr
      rcases List.mem_map.mp hr with ⟨k, hk, rfl⟩
      have hfilter := (List.mem_filter.mp hk).2
      simp only [Bool.and_eq_true, Bool.not_eq_eq_eq_not, Bool.not_true,
        beq_eq_false_iff_ne, ne_eq] at hfilter
      simp only [targetsSentinelDelete, Bool.not_eq_eq_eq_not, Bool.not_true,
        beq_eq_false_iff_ne, ne_eq]
      intro heq
      exact hfilter.2 (by rw [heq])
    · intro r hr
      rcases List.mem_singleton.mp hr with rfl
      rfl
  · rw [initRequests, List.getLast?_append]
    rfl

/-! ## Claim C6: the existing-key scan's queries and result -/

/-- Claim C6 (code bug): the spec says the scan at the start of `Init`
issues, per input namespace, a query projecting only the `(namespace,
key)` attributes.  The source builds such a projected query but then
constructs the paginator from a fresh `makeQueryForKind` call, so every
query actually issued carries no projection expression (full items are
fetched); the computed result is nevertheless exactly the set of
`(namespace, key)` pairs stored in the queried namespaces. -/
theorem claim_C6_scan_query_has_no_projection (tableName pfx : String)
    (newData : List SerializedCollection) :
    ((readExistingKeysQueries tableName pfx newData).all
        (fun q => q.projectionExpression.isNone)) = true ∧
    (∀ (table : Table) (x : NamespaceAndKey),
      x ∈ readExistingKeysList pfx table newData ↔
        ∃ coll ∈ newData,
          x ∈ (queryNamespace (namespaceForKind pfx coll.Kind) table).map itemPK) := by
  constructor
  · simp only [readExistingKeysQueries, List.all_eq_true]
    intro q hq
    rcases List.mem_map.mp hq with ⟨coll, _, rfl⟩
    rfl
  · intro table x
    exact mem_readExistingKeysList x

/-! ## Claim C5: the batched write primitive -/

theorem batchWriteRequests_eq_chunks
    (submit : List WriteRequest → Except DynError Unit) :
    ∀ (n : Nat) (requests : List WriteRequest), requests.length ≤ n →
      batchWriteRequests submit requests =
        submitChunksSequentially submit (chunksOf25 requests) := by
  intro n
  induction n with
  | zero =>
    intro requests h
    have : requests = [] := List.eq_nil_of_length_eq_zero (by omega)
    subst this
    simp [batchWriteRequests, chunksOf25, submitChunksSequentially]
  | succ k ih =>
    intro requests h
    cases requests with
    | nil => simp [batchWriteRequests, chunksOf25, submitChunksSequentially]
    | cons q qs =>
      rw [batchWriteRequests, chunksOf25, submitChunksSequentially]
      simp only
      cases hsub : submit ((q :: qs).take (min (q :: qs).length 25)) with
      | error e => rfl
      | ok u =>
        have hlen : ((q :: qs).drop (min (q :: qs).length 25)).length ≤ k := by
          simp only [List.length_drop, List.length_cons] at h ⊢
          omega
        rw [ih _ hlen]

theorem chunksOf25_flatten :
    ∀ (n : Nat) (requests : List WriteRequest), requests.length ≤ n →
      (chunksOf25 requests).flatten = requests := by
  intro n
  induction n with
  | zero =>
    intro requests h
    have : requests = [] := List.eq_nil_of_length_eq_zero (by omega)
    subst this
    simp [chunksOf25]
  | succ k ih =>
    intro requests h
    cases requests with
    | nil => simp [chunksOf25]
    | cons q qs =>
      rw [chunksOf25]
      simp only [List.flatten_cons]
      have hlen : ((q :: qs).drop (min (q :: qs).length 25)).length ≤ k := by
        simp only [List.length_drop, List.length_cons] at h ⊢
        omega
      rw [ih _ hlen, List.take_append_drop]

theorem chunksOf25_sizes :
    ∀ (n : Nat) (requests : List WriteRequest), requests.length ≤ n →
      ∀ c ∈ chunksOf25 requests, 0 < c.length ∧ c.length ≤ 25 := by
  intro n
  induction n with
  | zero =>
    intro requests h
    have : requests = [] := List.eq_nil_of_length_eq_zero (by omega)
    subst this
    intro c hc
    simp [chunksOf25] at hc
  | succ k ih =>
    intro requests h
    cases requests with
    | nil =>
      intro c hc
      simp [chunksOf25] at hc
    | cons q qs =>
      rw [chunksOf25]
      intro c hc
      rcases List.mem_cons.mp hc with hc | hc
      · subst hc
        simp only [List.length_take, List.length_cons]
        omega
      · have hlen : ((q :: qs).drop (min (q :: qs).length 25)).length ≤ k := by
          simp only [List.length_drop, List.length_cons] at h ⊢
          omega
        exact ih _ hlen c hc

theorem submitChunks_error_origin
    (submit : List WriteRequest → Except DynError Unit) :
    ∀ (cs : List (List WriteRequest)) (e : DynError),
      (submitChunksSequentially submit cs).2 = some e →
      ∃ c ∈ cs, submit c = .error e := by
  intro cs
  induction cs with
  | nil => intro e h; simp [submitChunksSequentially] at h
  | cons c cs ih =>
    intro e h
    rw [submitChunksSequentially] at h
    cases hsub : submit c with
    | error e' =>
      rw [hsub] at h
      simp only at h
      cases h
      exact ⟨c, List.mem_cons_self c cs, hsub⟩
    | ok u =>
      rw [hsub] at h
      simp only at h
      obtain ⟨c', hc', he⟩ := ih e h
      exact ⟨c', List.mem_cons_of_mem _ hc', he⟩

theorem submitChunks_ok_of_all_ok
    (submit : List WriteRequest → Except DynError Unit) :
    ∀ (cs : List (List WriteRequest)),
      (∀ c ∈ cs, submit c = .ok ()) →
      (submitChunksSequentially submit cs).2 = none := by
  intro cs
  induction cs with
  | nil => intro _; rfl
  | cons c cs ih =>
    intro hall
    rw [submitChunksSequentially, hall c (List.mem_cons_self c cs)]
    simp only
    exact ih (fun c' hc' => hall c' (List.mem_cons_of_mem _ hc'))

/-- Claim C5: `batchWriteRequests` behaves as the sequential submission of
the partition of the request list into consecutive chunks of at most 25
(in the original order): it equals the chunk-by-chunk runner on
`chunksOf25`, the chunks concatenate back to the request list, every chunk
is nonempty and at most 25 long, any error returned is the underlying
error of a submitted chunk (later chunks are never reached, and nothing
submitted is undone — a submission is a one-way remote call), and if every
chunk succeeds no error is returned. -/
theorem claim_C5_batch_write (submit : List WriteRequest → Except DynError Unit)
    (requests : List WriteRequest) :
    batchWriteRequests submit requests =
      submitChunksSequentially submit (chunksOf25 requests) ∧
    (chunksOf25 requests).flatten = requests ∧
    (∀ c ∈ chunksOf25 requests, 0 < c.length ∧ c.length ≤ 25) ∧
    (∀ e, (batchWriteRequests submit requests).2 = some e →
      ∃ c ∈ chunksOf25 requests, submit c = .error e) ∧
    ((∀ c ∈ chunksOf25 requests, submit c = .ok ()) →
      (batchWriteRequests submit requests).2 = none) := by
  have heq := batchWriteRequests_eq_chunks submit requests.length requests le_rfl
  refine ⟨heq, chunksOf25_flatten requests.length requests le_rfl,
    chunksOf25_sizes requests.length requests le_rfl, ?_, ?_⟩
  · intro e he
    rw [heq] at he
    exact submitChunks_error_origin submit _ e he
  · intro hall
    rw [heq]
    exact submitChunks_ok_of_all_ok submit _ hall

/-- Witness for C5 at concrete inputs: with an always-failing submitter the
single chunk's error surfaces; with an always-succeeding submitter no
error is returned. -/
theorem claim_C5_witness :
    (∃ c ∈ chunksOf25 [WriteRequest.del ⟨"ns", "k"⟩],
      (fun (_ : List WriteRequest) => (Except.error "boom" : Except DynError Unit)) c =
        .error "boom") ∧
    (batchWriteRequests (fun _ => .ok ()) [WriteRequest.del ⟨"ns", "k"⟩]).2 = none :=
  ⟨(claim_C5_batch_write (fun _ => .error "boom")
      [WriteRequest.del ⟨"ns", "k"⟩]).2.2.2.1 "boom" (by simp [batchWriteRequests]),
   (claim_C5_batch_write (fun _ => .ok ())
      [WriteRequest.del ⟨"ns", "k"⟩]).2.2.2.2 (fun c _ => rfl)⟩

/-! ## Oversized items (claims C3 and C1) -/

theorem goLen_replicate (n : Nat) (c : Char) (h : c.utf8Size = 1) :
    goLen (String.mk (List.replicate n c)) = n := by
  induction n with
  | zero => rfl
  | succ k ih =>
    simp only [goLen, List.replicate_succ, String.utf8ByteSize_mk,
      String.utf8Len_cons] at ih ⊢
    rw [h]
    omega

/-- Payload of 400001 ASCII bytes, enough to push any encoded record over
the 400000-byte ceiling on its own. -/
def bigPayload : String := String.mk (List.replicate 400001 'a')

/-- Oversized concrete item used as input in examples. -/
def bigItem : SerializedItemDescriptor := ⟨1, bigPayload⟩

theorem bigPayload_goLen : goLen bigPayload = 400001 :=
  goLen_replicate 400001 'a' (by decide)

theorem encodedSize_encodeItem (pfx kindName key : String)
    (item : SerializedItemDescriptor) :
    encodedSize (encodeItem pfx kindName key item) =
      100 + goLen tablePartitionKey + goLen (namespaceForKind pfx kindName) +
        goLen tableSortKey + goLen key + goLen versionAttribute +
        goLen (goItoa item.Version) + goLen itemJSONAttribute +
        goLen item.SerializedItem := by
  simp only [encodeItem, encodedSize, List.foldl_cons, List.foldl_nil,
    attrValueOfString, attrValueOfInt, attrValueToString]

theorem big_encodedSize :
    encodedSize (encodeItem "" "features" "k" bigItem) = 400134 := by
  rw [encodedSize_encodeItem]
  have h1 : goLen tablePartitionKey = 9 := by decide
  have h2 : goLen (namespaceForKind "" "features") = 8 := by decide
  have h3 : goLen tableSortKey = 3 := by decide
  have h4 : goLen "k" = 1 := by decide
  have h5 : goLen versionAttribute = 7 := by decide
  have h6 : goLen (goItoa bigItem.Version) = 1 := by decide
  have h7 : goLen itemJSONAttribute = 4 := by decide
  have h8 : goLen bigItem.SerializedItem = 400001 := bigPayload_goLen
  rw [h1, h2, h3, h4, h5, h6, h7, h8]

/-- Declined `Upsert` of an item over the size ceiling: no write, applied
false, nil error. -/
theorem upsert_oversized (pfx kindName key : String)
    (item : SerializedItemDescriptor) (table : Table)
    (hbig : encodedSize (encodeItem pfx kindName key item) > 400000) :
    Upsert pfx kindName key item table = (false, none, table) := by
  have hchk : checkSizeLimit (encodeItem pfx kindName key item) = false := by
    simp only [checkSizeLimit, dynamoDbMaxItemSize, decide_eq_false_iff_not, not_le]
    omega
  simp [Upsert, hchk]

/-- Claim C3: an item whose total encoded size (attribute names plus
encoded values plus the 100-byte fixed overhead) exceeds 400000 bytes is
declined by `Upsert` with applied = false, no error and no write; the
put-requests of `Init` consist only of items passing the very same
`checkSizeLimit` (plus the sentinel), and every input item passing it is
written; the shared `checkSizeLimit` compares against the same 400000
ceiling in both paths. -/
theorem claim_C3_size_limit (pfx kindName key : String)
    (item : SerializedItemDescriptor) (table : Table)
    (hbig : encodedSize (encodeItem pfx kindName key item) > 400000) :
    Upsert pfx kindName key item table = (false, none, table) ∧
    (∀ av : AttrMap, checkSizeLimit av = true ↔ encodedSize av ≤ 400000) ∧
    (∀ (allData : List SerializedCollection) (av : AttrMap),
      WriteRequest.put av ∈
          initRequests pfx (readExistingKeysList pfx table allData) allData →
        av = initedItem pfx ∨ checkSizeLimit av = true) ∧
    (∀ (allData : List SerializedCollection) (coll : SerializedCollection)
        (i : KeyedItem), coll ∈ allData → i ∈ coll.Items →
      checkSizeLimit (encodeItem pfx coll.Kind i.Key i.Item) = true →
      WriteRequest.put (encodeItem pfx coll.Kind i.Key i.Item) ∈
        initRequests pfx (readExistingKeysList pfx table allData) allData) := by
  refine ⟨upsert_oversized pfx kindName key item table hbig, ?_, ?_, ?_⟩
  · intro av
    simp [checkSizeLimit, dynamoDbMaxItemSize]
  · intro allData av hmem
    rw [initRequests] at hmem
    rcases List.mem_append.mp hmem with hmem | hmem
    · rcases List.mem_append.mp hmem with hmem | hmem
      · rcases List.mem_map.mp hmem with ⟨av', hav', heq⟩
        cases heq
        right
        rcases List.mem_flatMap.mp hav' with ⟨coll, _, hin⟩
        rcases List.mem_map.mp hin with ⟨i, hi, rfl⟩
        exact (List.mem_filter.mp hi).2
      · rcases List.mem_map.mp hmem with ⟨k, _, heq⟩
        cases heq
    · rcases List.mem_singleton.mp hmem with heq
      cases heq
      exact Or.inl rfl
  · intro allData coll i hcoll hi hsz
    rw [initRequests]
    refine List.mem_append.mpr (Or.inl (List.mem_append.mpr (Or.inl ?_)))
    refine List.mem_map.mpr ⟨encodeItem pfx coll.Kind i.Key i.Item, ?_, rfl⟩
    exact List.mem_flatMap.mpr
      ⟨coll, hcoll, List.mem_map.mpr ⟨i, List.mem_filter.mpr ⟨hi, hsz⟩, rfl⟩⟩

/-- Witness for C3 at a concrete oversized item: the 400001-byte payload's
record totals 400134 encoded bytes, and its upsert against the empty table
is declined without error and without a write. -/
theorem claim_C3_witness :
    encodedSize (encodeItem "" "features" "k" bigItem) > 400000 ∧
    Upsert "" "features" "k" bigItem [] = (false, none, []) :=
  ⟨by rw [big_encodedSize]; norm_num,
   (claim_C3_size_limit "" "features" "k" bigItem [] (by
      rw [big_encodedSize]; norm_num)).1⟩

/-! ## Claim C1: Upsert's conditional-write contract -/

/-- Counterexample to claim C1 as stated: it asserts `Upsert` applies
exactly when no record exists at the key or the stored version is lower,
for every item — but an item over the size ceiling is declined even though
no record exists at its key, so the "exactly when" fails on oversized
items (the size-limit case claim C3 describes). -/
theorem claim_C1_counterexample :
    ¬ (((Upsert "" "features" "k" bigItem ([] : Table)).1 = true) ↔
        (getItemFromTable ⟨namespaceForKind "" "features", "k"⟩ ([] : Table) = none ∨
         ∃ existing,
           getItemFromTable ⟨namespaceForKind "" "features", "k"⟩ ([] : Table) =
               some existing ∧
             attrValueToInt (existing.lookup versionAttribute) < bigItem.Version)) := by
  intro h
  have h1 : (Upsert "" "features" "k" bigItem ([] : Table)).1 = false := by
    rw [upsert_oversized "" "features" "k" bigItem []
      (by rw [big_encodedSize]; norm_num)]
  have h2 := h.mpr (Or.inl rfl)
  rw [h1] at h2
  exact Bool.false_ne_true h2

/-- Splitting of a successful `goAtoi` into the underlying parse and the
`int64` range bounds. -/
theorem parseSignedInt?_of_goAtoi {s : String} {v : Int} (h : goAtoi s = some v) :
    parseSignedInt? s = some v ∧ -(2 ^ 63) ≤ v ∧ v < 2 ^ 63 := by
  rw [goAtoi] at h
  cases hp : parseSignedInt? s with
  | none => rw [hp] at h; cases h
  | some w =>
    rw [hp] at h
    simp only at h
    by_cases hr : -(2 ^ 63) ≤ w ∧ w ≤ 2 ^ 63 - 1
    · rw [if_pos hr] at h
      cases h
      exact ⟨rfl, hr.1, by omega⟩
    · rw [if_neg hr] at h
      cases h

/-- Well-formedness of a stored record as far as `Upsert`'s contract is
concerned: the two primary-key attributes exist (every record a real table
holds has them) and the version attribute is numeric text in `int64`
range, as `encodeItem` writes it — the claim's "the stored record's
version" presupposes such records. -/
def storeWFItem (it : AttrMap) : Bool :=
  (it.lookup tablePartitionKey).isSome &&
  ((it.lookup tableSortKey).isSome &&
   (match it.lookup versionAttribute with
    | some (.N s) => (goAtoi s).isSome
    | _ => false))

theorem storeWFItem_spec {it : AttrMap} (h : storeWFItem it = true) :
    (it.lookup tablePartitionKey).isSome = true ∧
    (it.lookup tableSortKey).isSome = true ∧
    ∃ s v, it.lookup versionAttribute = some (.N s) ∧ goAtoi s = some v := by
  rw [storeWFItem, Bool.and_eq_true, Bool.and_eq_true] at h
  obtain ⟨h1, h2, h3⟩ := h
  refine ⟨h1, h2, ?_⟩
  cases hv : it.lookup versionAttribute with
  | none => rw [hv] at h3; simp at h3
  | some a =>
    cases a with
    | S s => rw [hv] at h3; simp at h3
    | N s =>
      rw [hv] at h3
      simp only at h3
      obtain ⟨v, hvv⟩ := Option.isSome_iff_exists.mp h3
      exact ⟨s, v, rfl, hvv⟩
    | SS l => rw [hv] at h3; simp at h3
    | other => rw [hv] at h3; simp at h3

/-- Reading back the item just put: the put removed any item with the same
primary key and appended the new one. -/
theorem getItem_after_put (table : Table) (av : AttrMap) :
    getItemFromTable (itemPK av) (applyRequest table (.put av)) = some av := by
  rw [applyRequest, getItemFromTable, List.find?_append]
  have h1 : (table.filter (fun it => !(itemPK it == itemPK av))).find?
      (fun it => itemPK it == itemPK av) = none := by
    rw [List.find?_eq_none]
    intro x hx
    have hflt := (List.mem_filter.mp hx).2
    simp only [Bool.not_eq_eq_eq_not, Bool.not_true] at hflt
    simp [hflt]
  rw [h1]
  simp [List.find?_cons]

/-- Evaluation of the condition expression against a record this store
encoded: it reduces to the pure version comparison. -/
theorem upsertConditionHolds_encodeItem (v' : Int) (pfx kindName key : String)
    (stored : SerializedItemDescriptor) :
    upsertConditionHolds v' (encodeItem pfx kindName key stored) =
      decide (v' > stored.Version) := by
  have h1 : (encodeItem pfx kindName key stored).lookup tablePartitionKey =
      some (.S (namespaceForKind pfx kindName)) := rfl
  have h2 : (encodeItem pfx kindName key stored).lookup tableSortKey =
      some (.S key) := rfl
  have h3 : (encodeItem pfx kindName key stored).lookup versionAttribute =
      some (.N (goItoa stored.Version)) := rfl
  rw [upsertConditionHolds, h1, h2, h3]
  simp [dynamoNumGT, parseSignedInt?_goItoa]

/-- Declined upsert against a record this store wrote with an
equal-or-higher version: not applied, no error, table unchanged. -/
theorem upsert_declines_version (pfx kindName key : String)
    (item' stored : SerializedItemDescriptor) (t : Table)
    (hfound : getItemFromTable ⟨namespaceForKind pfx kindName, key⟩ t =
      some (encodeItem pfx kindName key stored))
    (hle : item'.Version ≤ stored.Version) :
    Upsert pfx kindName key item' t = (false, none, t) := by
  rw [Upsert]
  simp only [itemPK_encodeItem, hfound]
  cases hchk : checkSizeLimit (encodeItem pfx kindName key item') with
  | false => simp
  | true =>
    simp only [Bool.not_true, Bool.false_eq_true, if_false,
      upsertConditionHolds_encodeItem]
    rw [if_neg]
    simp only [decide_eq_true_eq, not_lt]
    omega

/-- After a successful conditional put of `newItem`, a lower-or-equal
versioned upsert of the same key is declined and the stored version stays
at `newItem.Version`. -/
theorem upsert_applied_then_declines (pfx kindName key : String)
    (newItem item' : SerializedItemDescriptor) (table : Table)
    (hle : item'.Version ≤ newItem.Version)
    (h1 : -(2 ^ 63) ≤ newItem.Version) (h2 : newItem.Version < 2 ^ 63) :
    Upsert pfx kindName key item'
        (applyRequest table (.put (encodeItem pfx kindName key newItem))) =
      (false, none,
        applyRequest table (.put (encodeItem pfx kindName key newItem))) ∧
    attrValueToInt
      ((getItemFromTable ⟨namespaceForKind pfx kindName, key⟩
          (applyRequest table (.put (encodeItem pfx kindName key newItem)))).bind
        (fun it => it.lookup versionAttribute)) = newItem.Version := by
  have hfound : getItemFromTable ⟨namespaceForKind pfx kindName, key⟩
      (applyRequest table (.put (encodeItem pfx kindName key newItem))) =
      some (encodeItem pfx kindName key newItem) := by
    rw [← itemPK_encodeItem pfx kindName key newItem]
    exact getItem_after_put table _
  refine ⟨upsert_declines_version pfx kindName key item' newItem _ hfound hle, ?_⟩
  rw [hfound]
  show attrValueToInt (some (attrValueOfInt newItem.Version)) = newItem.Version
  exact attrValueToInt_ofInt h1 h2

/-- Claim C1 (amended): for every item within the size limit, against a
table of well-formed records, `Upsert` returns no error, applies exactly
when no record exists at the key or the stored record's decoded version is
strictly below the new version, leaves the table unchanged when it does
not apply, and after a successful upsert with version v any subsequent
upsert of the same key with version at most v is declined with the stored
version still v.  (The size-limit hypothesis is what the counterexample
forces onto the original claim.) -/
theorem claim_C1_amended (pfx kindName key : String)
    (newItem : SerializedItemDescriptor) (table : Table)
    (hsize : checkSizeLimit (encodeItem pfx kindName key newItem) = true)
    (hWF : table.all storeWFItem = true) :
    (Upsert pfx kindName key newItem table).2.1 = none ∧
    ((Upsert pfx kindName key newItem table).1 = true ↔
      (getItemFromTable ⟨namespaceForKind pfx kindName, key⟩ table = none ∨
       ∃ existing,
         getItemFromTable ⟨namespaceForKind pfx kindName, key⟩ table =
             some existing ∧
           attrValueToInt (existing.lookup versionAttribute) < newItem.Version)) ∧
    ((Upsert pfx kindName key newItem table).1 = false →
      (Upsert pfx kindName key newItem table).2.2 = table) ∧
    (∀ item' : SerializedItemDescriptor,
      (Upsert pfx kindName key newItem table).1 = true →
      item'.Version ≤ newItem.Version →
      -(2 ^ 63) ≤ newItem.Version → newItem.Version < 2 ^ 63 →
      Upsert pfx kindName key item' (Upsert pfx kindName key newItem table).2.2 =
        (false, none, (Upsert pfx kindName key newItem table).2.2) ∧
      attrValueToInt
        ((getItemFromTable ⟨namespaceForKind pfx kindName, key⟩
            (Upsert pfx kindName key newItem table).2.2).bind
          (fun it => it.lookup versionAttribute)) = newItem.Version) := by
  have hup0 : Upsert pfx kindName key newItem table =
      (match getItemFromTable ⟨namespaceForKind pfx kindName, key⟩ table with
       | none => (true, none,
           applyRequest table (.put (encodeItem pfx kindName key newItem)))
       | some existing =>
         if upsertConditionHolds newItem.Version existing then
           (true, none,
             applyRequest table (.put (encodeItem pfx kindName key newItem)))
         else (false, none, table)) := by
    rw [Upsert]
    simp only [hsize, Bool.not_true, Bool.false_eq_true, if_false,
      itemPK_encodeItem]
  cases hfind : getItemFromTable ⟨namespaceForKind pfx kindName, key⟩ table with
  | none =>
    rw [hfind] at hup0
    simp only at hup0
    refine ⟨by rw [hup0], ?_, ?_, ?_⟩
    · rw [hup0]
      exact ⟨fun _ => Or.inl rfl, fun _ => rfl⟩
    · intro hfalse
      rw [hup0] at hfalse
      cases hfalse
    · intro item' _ hle h1 h2
      rw [hup0]
      exact upsert_applied_then_declines pfx kindName key newItem item' table
        hle h1 h2
  | some existing =>
    rw [hfind] at hup0
    simp only at hup0
    have hmem : existing ∈ table := by
      rw [getItemFromTable] at hfind
      exact List.mem_of_find?_eq_some hfind
    obtain ⟨hpk1, hpk2, s, v0, hvattr, hparse⟩ :=
      storeWFItem_spec (List.all_eq_true.mp hWF existing hmem)
    have hps := parseSignedInt?_of_goAtoi hparse
    have hcond : upsertConditionHolds newItem.Version existing =
        decide (newItem.Version > v0) := by
      rw [upsertConditionHolds, hvattr]
      obtain ⟨a1, ha1⟩ := Option.isSome_iff_exists.mp hpk1
      obtain ⟨a2, ha2⟩ := Option.isSome_iff_exists.mp hpk2
      rw [ha1, ha2]
      simp [dynamoNumGT, parseSignedInt?_goItoa, hps.1]
    have hver : attrValueToInt (existing.lookup versionAttribute) = v0 := by
      rw [hvattr]
      simp [attrValueToInt, hparse]
    by_cases hcmp : v0 < newItem.Version
    · have hct : upsertConditionHolds newItem.Version existing = true := by
        rw [hcond]
        simp only [decide_eq_true_eq]
        omega
      rw [hct, if_pos rfl] at hup0
      refine ⟨by rw [hup0], ?_, ?_, ?_⟩
      · rw [hup0]
        exact ⟨fun _ => Or.inr ⟨existing, rfl, by rw [hver]; exact hcmp⟩,
          fun _ => rfl⟩
      · intro hfalse
        rw [hup0] at hfalse
        cases hfalse
      · intro item' _ hle h1 h2
        rw [hup0]
        exact upsert_applied_then_declines pfx kindName key newItem item' table
          hle h1 h2
    · have hcf : upsertConditionHolds newItem.Version existing = false := by
        rw [hcond]
        simp only [decide_eq_false_iff_not]
        omega
      rw [hcf] at hup0
      simp only [Bool.false_eq_true, if_false] at hup0
      refine ⟨by rw [hup0], ?_, ?_, ?_⟩
      · rw [hup0]
        constructor
        · intro h
          cases h
        · rintro (h | ⟨e, he, hlt⟩)
          · cases h
          · cases he
            rw [hver] at hlt
            exact absurd hlt hcmp
      · intro _
        rw [hup0]
      · intro item' happ
        rw [hup0] at happ
        cases happ

/-- Table and items for the C1 witness: a stored version-1 record, a
version-2 update. -/
def demoOld : SerializedItemDescriptor := ⟨1, "old"⟩

def demoNew : SerializedItemDescriptor := ⟨2, "new"⟩

def demoTable : Table := [encodeItem "" "features" "k" demoOld]

/-- Witness for the amended C1 at concrete inputs: a version-2 upsert over
a stored version-1 record yields no error, and it applies because the
stored version is lower. -/
theorem claim_C1_witness :
    (Upsert "" "features" "k" demoNew demoTable).2.1 = none ∧
    (Upsert "" "features" "k" demoNew demoTable).1 = true :=
  have h := claim_C1_amended "" "features" "k" demoNew demoTable
    (by decide) (by decide)
  ⟨h.1, h.2.1.mpr (Or.inr ⟨encodeItem "" "features" "k" demoOld,
    by decide, by decide⟩)⟩

/-! ## Claim C7: malformed stored records -/

/-- Decoding fails exactly when the record's sort-key attribute decodes to
the empty string (missing, wrong-shaped, or empty). -/
theorem decodeItem_eq_none_iff (av : AttrMap) :
    decodeItem av = none ↔ attrValueToString (av.lookup tableSortKey) = "" := by
  rw [decodeItem]
  by_cases h : attrValueToString (av.lookup tableSortKey) = ""
  · simp [h]
  · simp [h]

/-- Excluding a record that fails to decode from a filtered scan does not
change the decoded results. -/
theorem filterMap_decode_erase_bad (l : List AttrMap) (bad : AttrMap)
    (hbad : decodeItem bad = none) (p : AttrMap → Bool) :
    (l.filter p).filterMap
        (fun it => (decodeItem it).map (fun kv => (⟨kv.1, kv.2⟩ : KeyedItem))) =
      (l.filter (fun it => p it && !(it == bad))).filterMap
        (fun it => (decodeItem it).map (fun kv => (⟨kv.1, kv.2⟩ : KeyedItem))) := by
  induction l with
  | nil => rfl
  | cons x xs ih =>
    simp only [List.filter_cons]
    by_cases hp : p x = true
    · by_cases hx : (x == bad) = true
      · have hxb : x = bad := eq_of_beq hx
        subst hxb
        simp only [hp, hx, Bool.not_true, Bool.and_false, if_true, if_false,
          Bool.true_and, List.filterMap_cons, hbad]
        exact ih
      · simp only [hp, hx, Bool.not_false, Bool.and_true, if_true,
          List.filterMap_cons]
        cases hdx : decodeItem x with
        | none => exact ih
        | some kv => rw [ih]
    · simp only [hp, Bool.false_and, if_false]
      exact ih

/-- Claim C7: for a structurally malformed stored record (decode fails) in
a kind's namespace, `Get` at that record's key returns the not-found
descriptor together with a non-nil error, while `GetAll` on the namespace
silently omits the record and returns the remaining well-formed records
with no error. -/
theorem claim_C7_malformed_record (pfx kindName : String) (table : Table)
    (bad : AttrMap) (hmem : bad ∈ table)
    (hns : attrValueToString (bad.lookup tablePartitionKey) =
      namespaceForKind pfx kindName)
    (hdec : decodeItem bad = none) :
    (getFromTable pfx kindName
        (attrValueToString (bad.lookup tableSortKey)) table).1 =
      SerializedItemDescriptor.notFound ∧
    (getFromTable pfx kindName
        (attrValueToString (bad.lookup tableSortKey)) table).2 ≠ none ∧
    getAllFromTable pfx kindName table =
      .ok ((table.filter (fun it =>
          (attrValueToString (it.lookup tablePartitionKey) ==
            namespaceForKind pfx kindName) && !(it == bad))).filterMap
        (fun it => (decodeItem it).map (fun kv => ⟨kv.1, kv.2⟩))) := by
  have hkey : attrValueToString (bad.lookup tableSortKey) = "" :=
    (decodeItem_eq_none_iff bad).mp hdec
  have hpk : itemPK bad = ⟨namespaceForKind pfx kindName,
      attrValueToString (bad.lookup tableSortKey)⟩ := by
    rw [itemPK, hns]
  have hfind : ∃ x, getItemFromTable ⟨namespaceForKind pfx kindName,
      attrValueToString (bad.lookup tableSortKey)⟩ table = some x := by
    apply Option.isSome_iff_exists.mp
    rw [getItemFromTable, List.find?_isSome]
    exact ⟨bad, hmem, by rw [hpk]; exact beq_self_eq_true _⟩
  obtain ⟨x, hx⟩ := hfind
  have hxp : (itemPK x == (⟨namespaceForKind pfx kindName,
      attrValueToString (bad.lookup tableSortKey)⟩ : NamespaceAndKey)) = true := by
    rw [getItemFromTable] at hx
    have h' := List.find?_some hx
    exact h'
  have hxdec : decodeItem x = none := by
    rw [decodeItem_eq_none_iff]
    have hxeq : itemPK x = ⟨namespaceForKind pfx kindName,
        attrValueToString (bad.lookup tableSortKey)⟩ := eq_of_beq hxp
    have h2 : attrValueToString (x.lookup tableSortKey) =
        attrValueToString (bad.lookup tableSortKey) :=
      congrArg NamespaceAndKey.key hxeq
    rw [h2, hkey]
  refine ⟨?_, ?_, ?_⟩
  · rw [getFromTable, hx, Get]
    simp only [hxdec]
  · rw [getFromTable, hx, Get]
    simp only [hxdec]
    simp
  · rw [getAllFromTable, GetAll, queryNamespace]
    show Except.ok _ = Except.ok _
    congr 1
    exact filterMap_decode_erase_bad table bad hdec _

/-- Malformed record (no sort-key attribute at all) for the C7 witness. -/
def badRecord : AttrMap := [(tablePartitionKey, Attr.S "features")]

/-- Well-formed companion record for the C7 witness. -/
def goodRecord : AttrMap := encodeItem "" "features" "g" ⟨1, "x"⟩

/-- Table mixing the malformed and the well-formed record. -/
def mixedTable : Table := [badRecord, goodRecord]

/-- Witness for C7 at a concrete table: the point read at the malformed
record's key is not-found with a non-nil error. -/
theorem claim_C7_witness :
    (getFromTable "" "features" "" mixedTable).1 =
      SerializedItemDescriptor.notFound ∧
    (getFromTable "" "features" "" mixedTable).2 ≠ none :=
  ⟨(claim_C7_malformed_record "" "features" mixedTable badRecord
      (by decide) (by decide) (by decide)).1,
   (claim_C7_malformed_record "" "features" mixedTable badRecord
      (by decide) (by decide) (by decide)).2.1⟩

/-! ## Claim C2: Init followed by GetAll -/

/-- The keys `Init` marks used are exactly the primary keys of the items it
puts. -/
theorem usedKeys_eq (pfx : String) (allData : List SerializedCollection) :
    usedKeys pfx allData = (initAvs pfx allData).map itemPK := by
  rw [usedKeys, initAvs, List.map_flatMap]
  congr 1
  funext c
  rw [List.map_map]
  apply List.map_congr_left
  intro i _
  exact (itemPK_encodeItem pfx c.Kind i.Key i.Item).symm

/-- With distinct kinds and per-collection distinct keys, the primary keys
of `Init`'s put items are pairwise distinct. -/
theorem initAvs_pk_nodup (pfx : String) (allData : List SerializedCollection)
    (hkinds : (allData.map (·.Kind)).Nodup)
    (hkeys : ∀ c ∈ allData, (c.Items.map (·.Key)).Nodup) :
    ((initAvs pfx allData).map itemPK).Nodup := by
  rw [← usedKeys_eq, usedKeys, List.nodup_flatMap]
  constructor
  · intro c hc
    have h1 : ((c.Items.filter (fun i =>
        checkSizeLimit (encodeItem pfx c.Kind i.Key i.Item))).map (·.Key)).Nodup :=
      ((List.filter_sublist c.Items).map (·.Key)).nodup (hkeys c hc)
    have h2 : ((c.Items.filter (fun i =>
          checkSizeLimit (encodeItem pfx c.Kind i.Key i.Item))).map
        (fun i => (⟨namespaceForKind pfx c.Kind, i.Key⟩ : NamespaceAndKey))) =
        (((c.Items.filter (fun i =>
            checkSizeLimit (encodeItem pfx c.Kind i.Key i.Item))).map (·.Key)).map
          (fun k => (⟨namespaceForKind pfx c.Kind, k⟩ : NamespaceAndKey))) := by
      rw [List.map_map]
      rfl
    rw [h2]
    refine List.Nodup.map ?_ h1
    intro a b hab
    injection hab
  · have hp : allData.Pairwise (fun c1 c2 => c1.Kind ≠ c2.Kind) :=
      List.pairwise_map.mp hkinds
    refine hp.imp ?_
    intro c1 c2 hne
    intro z hz1 hz2
    rcases List.mem_map.mp hz1 with ⟨i1, _, rfl⟩
    rcases List.mem_map.mp hz2 with ⟨i2, _, heq⟩
    have hns : namespaceForKind pfx c2.Kind = namespaceForKind pfx c1.Kind :=
      congrArg NamespaceAndKey.ns heq
    exact hne (prefixedNamespace_inj hns.symm)

/-- Partition-key attribute of an encoded item. -/
theorem encodeItem_ns (pfx kindName key : String) (item : SerializedItemDescriptor) :
    attrValueToString ((encodeItem pfx kindName key item).lookup tablePartitionKey) =
      namespaceForKind pfx kindName := rfl

/-- Primary key of the sentinel record. -/
theorem itemPK_initedItem (pfx : String) :
    itemPK (initedItem pfx) = ⟨initedKey pfx, initedKey pfx⟩ := rfl

/-- A query commutes with a table-level filter. -/
theorem queryNamespace_filter (nsName : String) (p : AttrMap → Bool) (l : Table) :
    queryNamespace nsName (l.filter p) = (queryNamespace nsName l).filter p := by
  rw [queryNamespace, queryNamespace, List.filter_filter, List.filter_filter]
  congr 1
  funext it
  exact Bool.and_comm _ _

/-- The namespace slice of `Init`'s put items is exactly the collection of
that namespace (with distinct kinds). -/
theorem queryNamespace_initAvs (pfx : String)
    (allData : List SerializedCollection) (coll : SerializedCollection)
    (hcoll : coll ∈ allData)
    (hkinds : (allData.map (·.Kind)).Nodup) :
    queryNamespace (namespaceForKind pfx coll.Kind) (initAvs pfx allData) =
      (coll.Items.filter (fun i =>
          checkSizeLimit (encodeItem pfx coll.Kind i.Key i.Item))).map
        (fun i => encodeItem pfx coll.Kind i.Key i.Item) := by
  obtain ⟨l1, l2, rfl⟩ := List.append_of_mem hcoll
  have hmid : coll.Kind ∉ l1.map (·.Kind) ++ l2.map (·.Kind) := by
    have h1 : (l1.map (·.Kind) ++ coll.Kind :: l2.map (·.Kind)).Nodup := by
      simpa using hkinds
    exact (List.nodup_cons.mp (List.nodup_middle.mp h1)).1
  have hslice : ∀ c : SerializedCollection, c.Kind ≠ coll.Kind →
      queryNamespace (namespaceForKind pfx coll.Kind)
        ((c.Items.filter (fun i =>
            checkSizeLimit (encodeItem pfx c.Kind i.Key i.Item))).map
          (fun i => encodeItem pfx c.Kind i.Key i.Item)) = [] := by
    intro c hne
    rw [queryNamespace, List.filter_eq_nil_iff]
    intro av hav
    rcases List.mem_map.mp hav with ⟨i, _, rfl⟩
    rw [encodeItem_ns]
    simp only [beq_iff_eq]
    intro heq
    exact hne (prefixedNamespace_inj heq)
  rw [initAvs, List.flatMap_append, List.flatMap_cons, queryNamespace,
    List.filter_append, List.filter_append, ← queryNamespace, ← queryNamespace,
    ← queryNamespace]
  have hl1 : queryNamespace (namespaceForKind pfx coll.Kind)
      (l1.flatMap (fun c =>
        (c.Items.filter (fun i =>
            checkSizeLimit (encodeItem pfx c.Kind i.Key i.Item))).map
          (fun i => encodeItem pfx c.Kind i.Key i.Item))) = [] := by
    rw [queryNamespace, List.filter_flatMap, List.flatMap_eq_nil_iff]
    intro c hc
    rw [← queryNamespace]
    refine hslice c ?_
    intro heq
    exact hmid (List.mem_append.mpr (Or.inl
      (List.mem_map.mpr ⟨c, hc, heq⟩)))
  have hl2 : queryNamespace (namespaceForKind pfx coll.Kind)
      (l2.flatMap (fun c =>
        (c.Items.filter (fun i =>
            checkSizeLimit (encodeItem pfx c.Kind i.Key i.Item))).map
          (fun i => encodeItem pfx c.Kind i.Key i.Item))) = [] := by
    rw [queryNamespace, List.filter_flatMap, List.flatMap_eq_nil_iff]
    intro c hc
    rw [← queryNamespace]
    refine hslice c ?_
    intro heq
    exact hmid (List.mem_append.mpr (Or.inr
      (List.mem_map.mpr ⟨c, hc, heq⟩)))
  have hself : queryNamespace (namespaceForKind pfx coll.Kind)
      ((coll.Items.filter (fun i =>
          checkSizeLimit (encodeItem pfx coll.Kind i.Key i.Item))).map
        (fun i => encodeItem pfx coll.Kind i.Key i.Item)) =
      (coll.Items.filter (fun i =>
          checkSizeLimit (encodeItem pfx coll.Kind i.Key i.Item))).map
        (fun i => encodeItem pfx coll.Kind i.Key i.Item) := by
    rw [queryNamespace, List.filter_eq_self]
    intro av hav
    rcases List.mem_map.mp hav with ⟨i, _, rfl⟩
    rw [encodeItem_ns]
    exact beq_self_eq_true _
  rw [hl1, hl2, hself]
  simp

/-- A query distributes over append. -/
theorem queryNamespace_append (nsName : String) (X Y : Table) :
    queryNamespace nsName (X ++ Y) =
      queryNamespace nsName X ++ queryNamespace nsName Y :=
  List.filter_append _ _

/-- Core of claim C2: after `Init` runs to completion, the namespace slice
of the table for a kind of the input is exactly the encodings of that
kind's size-passing items, whatever was stored before. -/
theorem runInit_queryNamespace (pfx : String) (t : Table)
    (allData : List SerializedCollection) (coll : SerializedCollection)
    (hcoll : coll ∈ allData)
    (hkinds : (allData.map (·.Kind)).Nodup)
    (hkeys : ∀ c ∈ allData, (c.Items.map (·.Key)).Nodup)
    (hkind : coll.Kind ≠ "$inited") :
    queryNamespace (namespaceForKind pfx coll.Kind) (runInit pfx t allData) =
      (coll.Items.filter (fun i =>
          checkSizeLimit (encodeItem pfx coll.Kind i.Key i.Item))).map
        (fun i => encodeItem pfx coll.Kind i.Key i.Item) := by
  have hnd := initAvs_pk_nodup pfx allData hkinds hkeys
  have hnsne : namespaceForKind pfx coll.Kind ≠ initedKey pfx :=
    namespaceForKind_ne_initedKey hkind
  rw [runInit, initRequests, List.foldl_append, List.foldl_append,
    foldl_applyRequest_puts _ _ hnd, foldl_applyRequest_dels,
    List.foldl_cons, List.foldl_nil]
  simp only [applyRequest]
  have hsent : queryNamespace (namespaceForKind pfx coll.Kind)
      [initedItem pfx] = [] := by
    rw [queryNamespace, List.filter_eq_nil_iff]
    intro x hx
    rcases List.mem_singleton.mp hx with rfl
    have hattr : attrValueToString ((initedItem pfx).lookup tablePartitionKey) =
        initedKey pfx := rfl
    rw [hattr]
    simp only [beq_iff_eq]
    exact fun h => hnsne h.symm
  rw [queryNamespace_append, queryNamespace_filter, queryNamespace_filter,
    queryNamespace_append, queryNamespace_filter,
    queryNamespace_initAvs pfx allData coll hcoll hkinds, hsent,
    List.append_nil, List.filter_append, List.filter_append]
  have hT : ((queryNamespace (namespaceForKind pfx coll.Kind) t).filter
      (fun it => !((initAvs pfx allData).map itemPK).contains (itemPK it))).filter
      (fun it => !(initDeleteKeys pfx (readExistingKeysList pfx t allData)
        allData).contains (itemPK it)) = [] := by
    rw [List.filter_eq_nil_iff]
    intro x hx
    obtain ⟨hxq, hxF1⟩ := List.mem_filter.mp hx
    rw [queryNamespace] at hxq
    obtain ⟨hxt, hxns⟩ := List.mem_filter.mp hxq
    have hxns' : attrValueToString (x.lookup tablePartitionKey) =
        namespaceForKind pfx coll.Kind := beq_iff_eq.mp hxns
    have hnotused : itemPK x ∉ (initAvs pfx allData).map itemPK := by
      simpa using hxF1
    have hcov : itemPK x ∈ readExistingKeysList pfx t allData := by
      refine (mem_readExistingKeysList (itemPK x)).mpr ⟨coll, hcoll, ?_⟩
      refine List.mem_map.mpr ⟨x, ?_, rfl⟩
      rw [queryNamespace]
      exact List.mem_filter.mpr ⟨hxt, hxns⟩
    have hmemdel : itemPK x ∈
        initDeleteKeys pfx (readExistingKeysList pfx t allData) allData := by
      rw [initDeleteKeys]
      refine List.mem_filter.mpr ⟨hcov, ?_⟩
      rw [Bool.and_eq_true]
      refine ⟨?_, ?_⟩
      · rw [usedKeys_eq]
        simpa using hnotused
      · have hnsx : (itemPK x).ns = namespaceForKind pfx coll.Kind := hxns'
        rw [hnsx]
        simp only [Bool.not_eq_eq_eq_not, Bool.not_true, beq_eq_false_iff_ne,
          ne_eq]
        exact hnsne
    simp [hmemdel]
  rw [hT]
  have hC2 : ((coll.Items.filter (fun i =>
        checkSizeLimit (encodeItem pfx coll.Kind i.Key i.Item))).map
      (fun i => encodeItem pfx coll.Kind i.Key i.Item)).filter
      (fun it => !(initDeleteKeys pfx (readExistingKeysList pfx t allData)
        allData).contains (itemPK it)) =
      (coll.Items.filter (fun i =>
          checkSizeLimit (encodeItem pfx coll.Kind i.Key i.Item))).map
        (fun i => encodeItem pfx coll.Kind i.Key i.Item) := by
    rw [List.filter_eq_self]
    intro av hav
    rcases List.mem_map.mp hav with ⟨i, hi, rfl⟩
    have hused : itemPK (encodeItem pfx coll.Kind i.Key i.Item) ∈
        usedKeys pfx allData := by
      rw [usedKeys_eq]
      exact List.mem_map.mpr ⟨encodeItem pfx coll.Kind i.Key i.Item,
        List.mem_flatMap.mpr ⟨coll, hcoll, List.mem_map.mpr ⟨i, hi, rfl⟩⟩, rfl⟩
    have hnotdel : itemPK (encodeItem pfx coll.Kind i.Key i.Item) ∉
        initDeleteKeys pfx (readExistingKeysList pfx t allData) allData := by
      intro hdel
      rw [initDeleteKeys] at hdel
      have hpred := (List.mem_filter.mp hdel).2
      rw [Bool.and_eq_true] at hpred
      have h1 := hpred.1
      simp only [Bool.not_eq_eq_eq_not, Bool.not_true] at h1
      have : itemPK (encodeItem pfx coll.Kind i.Key i.Item) ∉
          usedKeys pfx allData := by
        simpa using h1
      exact this hused
    simp [hnotdel]
  rw [hC2]
  have hC3 : ((coll.Items.filter (fun i =>
        checkSizeLimit (encodeItem pfx coll.Kind i.Key i.Item))).map
      (fun i => encodeItem pfx coll.Kind i.Key i.Item)).filter
      (fun it => !(itemPK it == itemPK (initedItem pfx))) =
      (coll.Items.filter (fun i =>
          checkSizeLimit (encodeItem pfx coll.Kind i.Key i.Item))).map
        (fun i => encodeItem pfx coll.Kind i.Key i.Item) := by
    rw [List.filter_eq_self]
    intro av hav
    rcases List.mem_map.mp hav with ⟨i, _, rfl⟩
    rw [itemPK_encodeItem, itemPK_initedItem]
    have hne : ((⟨namespaceForKind pfx coll.Kind, i.Key⟩ : NamespaceAndKey) ==
        ⟨initedKey pfx, initedKey pfx⟩) = false :=
      beq_eq_false_iff_ne.mpr
        (fun h => hnsne (congrArg NamespaceAndKey.ns h))
    rw [hne]
    rfl
  rw [hC3]
  simp

/-- Claim C2: for every prior table state and every input collection set
with distinct kinds, per-collection distinct nonempty keys, int-ranged
versions and no kind named like the sentinel, after `Init` completes
successfully `GetAll` on a namespace of the input returns exactly that
collection's items minus the ones dropped by the size limit — every input
item was written unconditionally, and every previously stored key of the
queried namespace that is absent from the input was deleted. -/
theorem claim_C2_init_then_getAll (pfx : String) (t : Table)
    (allData : List SerializedCollection) (coll : SerializedCollection)
    (hcoll : coll ∈ allData)
    (hkinds : (allData.map (·.Kind)).Nodup)
    (hkeys : ∀ c ∈ allData, (c.Items.map (·.Key)).Nodup)
    (hne : ∀ c ∈ allData, ∀ i ∈ c.Items, i.Key ≠ "")
    (hver : ∀ c ∈ allData, ∀ i ∈ c.Items,
      -(2 ^ 63) ≤ i.Item.Version ∧ i.Item.Version < 2 ^ 63)
    (hkind : coll.Kind ≠ "$inited") :
    getAllFromTable pfx coll.Kind (runInit pfx t allData) =
      .ok (coll.Items.filter (fun i =>
        checkSizeLimit (encodeItem pfx coll.Kind i.Key i.Item))) := by
  rw [getAllFromTable, GetAll,
    runInit_queryNamespace pfx t allData coll hcoll hkinds hkeys hkind]
  show Except.ok _ = Except.ok _
  congr 1
  simp only []
  rw [List.filterMap_map]
  have hpt : ∀ i ∈ coll.Items.filter (fun i =>
      checkSizeLimit (encodeItem pfx coll.Kind i.Key i.Item)),
      ((fun it => (decodeItem it).map (fun kv => (⟨kv.1, kv.2⟩ : KeyedItem))) ∘
        (fun i => encodeItem pfx coll.Kind i.Key i.Item)) i = some i := by
    intro i hi
    have himem := (List.mem_filter.mp hi).1
    have hk := hne coll hcoll i himem
    have hv := hver coll hcoll i himem
    show (decodeItem (encodeItem pfx coll.Kind i.Key i.Item)).map
      (fun kv => (⟨kv.1, kv.2⟩ : KeyedItem)) = some i
    rw [decodeItem_encodeItem pfx coll.Kind i.Key i.Item hk hv.1 hv.2]
    show some (⟨i.Key, ⟨i.Item.Version, i.Item.SerializedItem⟩⟩ : KeyedItem) =
      some i
    congr 1
  rw [List.filterMap_congr hpt, List.filterMap_some]

/-- Collection, data set and prior table for the C2 witness. -/
def demoColl : SerializedCollection := ⟨"features", [⟨"a", ⟨1, "pay"⟩⟩]⟩

def demoData : List SerializedCollection := [demoColl]

def demoPrior : Table :=
  [encodeItem "" "features" "stale" ⟨1, "old"⟩, initedItem ""]

/-- Witness for C2 at concrete inputs: initializing over a prior table that
holds a stale record and the sentinel yields exactly the input collection
from `GetAll`. -/
theorem claim_C2_witness :
    getAllFromTable "" demoColl.Kind (runInit "" demoPrior demoData) =
      .ok (demoColl.Items.filter (fun i =>
        checkSizeLimit (encodeItem "" demoColl.Kind i.Key i.Item))) :=
  claim_C2_init_then_getAll "" demoPrior demoData demoColl (by decide)
    (by decide) (by decide) (by decide) (by decide) (by decide)

end LDDynamoDB
